import Mathlib

/-!
# Migration manager of `internal/migration/migration.go`

A shallow embedding of the migration manager (`Manager.Run`, `Manager.Rollback`,
`Manager.GetStatus` and their helpers) together with the part of the outside
world the manager talks to:

* the `_migrations` collection of the MongoDB database, as the list of its
  documents in natural (insertion) order, with or without the unique index on
  `name` that `Initialize` creates;
* everything else in the database, as a value of an arbitrary type `D`;
* the wall clock read by `time.Now()`;
* the replies of the store: every call to the driver can fail, the failures
  being given by a fault schedule, and the order of documents with equal sort
  keys is the choice of the store.

The functions of the manager are state transformers on `World D`: each takes the
world it is called in and returns its Go result with the world it leaves.  A Go
`error` is its message, `none` for `nil`.  The calls made to `Up` and `Down` are
logged in `World.calls`, which is instrumentation only; the log lines the
manager writes through `logger.Log` have no effect on its results and are left
out, as is the `context.Context`, whose cancellation shows as a store fault.
-/

namespace migration

/-! ## Data model -/

/-- MigrationRecord stores metadata about applied migrations.  `AppliedAt` is the
timestamp as the store keeps it. -/
structure MigrationRecord where
  Name : String
  AppliedAt : Int
  deriving DecidableEq, Repr

/-- Errors returned by the store driver. -/
inductive StoreError where
  | ErrNoDocuments
  | DuplicateKey
  | Unavailable (msg : String)
  deriving DecidableEq, Repr

/-- The message of a driver error (the `Error()` of Go). -/
def StoreError.Error : StoreError → String
  | .ErrNoDocuments => "mongo: no documents in result"
  | .DuplicateKey => "E11000 duplicate key error"
  | .Unavailable msg => msg

/-- The database handed to `Up` and `Down`: the `_migrations` collection, whether
the unique index on `name` exists, and the rest of the database. -/
structure Database (D : Type) where
  migrations : List MigrationRecord
  uniqueName : Bool
  data : D

/-- Migration defines a single migration.  `Up` and `Down` receive the database
handle, return the Go `error` (`none` is `nil`) and the database as they leave it,
also when they fail. -/
structure Migration (D : Type) where
  Name : String
  Up : Database D → Option String × Database D
  Down : Database D → Option String × Database D

/-- A logged invocation of the `Up` or the `Down` of a migration, by migration name. -/
inductive Call where
  | up (name : String)
  | down (name : String)
  deriving DecidableEq, Repr

/-- What the manager does not control: the successive readings of `time.Now()`,
the fault schedule of the store (`fault n` is the failure of the `n`-th driver
call, if any) and the order the store gives two documents with equal sort keys
(`tie a b` places `a` before `b`). -/
structure Env where
  now : Nat → Int
  fault : Nat → Option StoreError
  tie : MigrationRecord → MigrationRecord → Bool

/-- The state the manager runs in: the database, the number of clock readings
and of driver calls made so far, and the log of `Up` and `Down` invocations. -/
structure World (D : Type) where
  db : Database D
  ticks : Nat
  ops : Nat
  calls : List Call

variable {D : Type}

/-- The names recorded in the tracking collection, in natural order. -/
def World.names (w : World D) : List String :=
  w.db.migrations.map (fun r => r.Name)

/-- An `Up` or `Down` that leaves the documents of the tracking collection as they
are, as the ownership rule of the data model demands of every migration. -/
def KeepsTracking (f : Database D → Option String × Database D) : Prop :=
  ∀ db, (f db).2.migrations = db.migrations

/-! ## The store driver -/

/-- One driver call has been made. -/
def World.called (w : World D) : World D :=
  { w with ops := w.ops + 1 }

/-- `time.Now()`. -/
def timeNow (env : Env) (w : World D) : Int × World D :=
  (env.now w.ticks, { w with ticks := w.ticks + 1 })

/-- The sort order of the store on `applied_at`, ascending (`1`) or descending (`-1`);
equal keys are ordered as the store chooses. -/
def sortsBefore (env : Env) (asc : Bool) (a b : MigrationRecord) : Bool :=
  if asc then
    decide (a.AppliedAt < b.AppliedAt) || (a.AppliedAt == b.AppliedAt && env.tie a b)
  else
    decide (b.AppliedAt < a.AppliedAt) || (a.AppliedAt == b.AppliedAt && env.tie a b)

/-- Insert a document into a sorted result. -/
def sortInsert (env : Env) (asc : Bool) (a : MigrationRecord) :
    List MigrationRecord → List MigrationRecord
  | [] => [a]
  | b :: l => if sortsBefore env asc a b then a :: b :: l else b :: sortInsert env asc a l

/-- The documents of a collection in the order of a sort on `applied_at`. -/
def sortByAppliedAt (env : Env) (asc : Bool) : List MigrationRecord → List MigrationRecord
  | [] => []
  | a :: l => sortInsert env asc a (sortByAppliedAt env asc l)

/-- `collection.Indexes().CreateOne` for a unique index on `name`: refused when the
collection already holds two documents with one name. -/
def Collection.CreateUniqueIndex (env : Env) (w : World D) : Option StoreError × World D :=
  match env.fault w.ops with
  | some e => (some e, w.called)
  | none =>
    if w.names.Nodup then
      (none, { w.called with db := { w.db with uniqueName := true } })
    else (some .DuplicateKey, w.called)

/-- `collection.CountDocuments(ctx, bson.M{"name": name})`. -/
def Collection.CountDocuments (env : Env) (name : String) (w : World D) :
    Except StoreError Nat × World D :=
  match env.fault w.ops with
  | some e => (.error e, w.called)
  | none => (.ok (w.db.migrations.countP (fun r => r.Name == name)), w.called)

/-- `collection.InsertOne(ctx, record)`: rejected with a duplicate-key error when the
unique index exists and a document with that name is present; otherwise the
document is appended. -/
def Collection.InsertOne (env : Env) (record : MigrationRecord) (w : World D) :
    Option StoreError × World D :=
  match env.fault w.ops with
  | some e => (some e, w.called)
  | none =>
    if w.db.uniqueName && w.db.migrations.any (fun r => r.Name == record.Name) then
      (some .DuplicateKey, w.called)
    else
      (none, { w.called with db := { w.db with migrations := w.db.migrations ++ [record] } })

/-- `collection.DeleteOne(ctx, bson.M{"name": name})`: removes the first matching
document, if there is one. -/
def Collection.DeleteOne (env : Env) (name : String) (w : World D) :
    Option StoreError × World D :=
  match env.fault w.ops with
  | some e => (some e, w.called)
  | none =>
    (none, { w.called with
      db := { w.db with migrations := w.db.migrations.eraseP (fun r => r.Name == name) } })

/-- `collection.FindOne(ctx, bson.M{}, opts).Decode(&record)` with a sort on
`applied_at`: the first document in sort order, `ErrNoDocuments` when the
collection is empty. -/
def Collection.FindOne (env : Env) (asc : Bool) (w : World D) :
    Except StoreError MigrationRecord × World D :=
  match env.fault w.ops with
  | some e => (.error e, w.called)
  | none =>
    match sortByAppliedAt env asc w.db.migrations with
    | [] => (.error .ErrNoDocuments, w.called)
    | r :: _ => (.ok r, w.called)

/-- `collection.Find(ctx, bson.M{}, options.Find().SetSort(...))`: a cursor over
the documents in sort order. -/
def Collection.Find (env : Env) (asc : Bool) (w : World D) :
    Except StoreError (List MigrationRecord) × World D :=
  match env.fault w.ops with
  | some e => (.error e, w.called)
  | none => (.ok (sortByAppliedAt env asc w.db.migrations), w.called)

/-- `cursor.All(ctx, &records)`: drains the cursor. -/
def Cursor.All (env : Env) (cursor : List MigrationRecord) (w : World D) :
    Except StoreError (List MigrationRecord) × World D :=
  match env.fault w.ops with
  | some e => (.error e, w.called)
  | none => (.ok cursor, w.called)

/-! ## The manager -/

/-- Initialize sets up the migrations collection: a unique index on the name
field. -/
def Manager.Initialize (env : Env) (w : World D) : Option String × World D :=
  match Collection.CreateUniqueIndex env w with
  | (some e, w1) => (some e.Error, w1)
  | (none, w1) => (none, w1)

/-- Manager.isApplied checks if a migration has been applied. -/
def Manager.isApplied (env : Env) (name : String) (w : World D) :
    Except StoreError Bool × World D :=
  match Collection.CountDocuments env name w with
  | (.error e, w1) => (.error e, w1)
  | (.ok count, w1) => (.ok (decide (count > 0)), w1)

/-- Manager.recordMigration records that a migration has been applied. -/
def Manager.recordMigration (env : Env) (name : String) (w : World D) :
    Option StoreError × World D :=
  let (t, w1) := timeNow env w
  Collection.InsertOne env { Name := name, AppliedAt := t } w1

/-- Manager.removeMigration removes a migration record. -/
def Manager.removeMigration (env : Env) (name : String) (w : World D) :
    Option StoreError × World D :=
  Collection.DeleteOne env name w

/-- The call `migration.Up(ctx, m.db)`: the database becomes what `Up` leaves, and
the invocation is logged. -/
def callUp (m : Migration D) (w : World D) : Option String × World D :=
  ((m.Up w.db).1, { w with db := (m.Up w.db).2, calls := w.calls ++ [Call.up m.Name] })

/-- The call `migration.Down(ctx, m.db)`. -/
def callDown (m : Migration D) (w : World D) : Option String × World D :=
  ((m.Down w.db).1, { w with db := (m.Down w.db).2, calls := w.calls ++ [Call.down m.Name] })

/-- Manager.Run executes all pending migrations.  The result is the Go `error`
(`none` is `nil`) and the world the call leaves. -/
def Manager.Run (env : Env) : List (Migration D) → World D → Option String × World D
  | [], w => (none, w)
  | migration :: rest, w =>
    match Manager.isApplied env migration.Name w with
    | (.error err, w1) =>
      (some ("failed to check migration status for " ++ migration.Name ++ ": " ++ err.Error), w1)
    | (.ok true, w1) => Manager.Run env rest w1
    | (.ok false, w1) =>
      match callUp migration w1 with
      | (some err, w2) => (some ("migration " ++ migration.Name ++ " failed: " ++ err), w2)
      | (none, w2) =>
        match Manager.recordMigration env migration.Name w2 with
        | (some err, w3) =>
          (some ("failed to record migration " ++ migration.Name ++ ": " ++ err.Error), w3)
        | (none, w3) => Manager.Run env rest w3

/-- Manager.Rollback reverts the last applied migration. -/
def Manager.Rollback (env : Env) (migrations : List (Migration D)) (w : World D) :
    Option String × World D :=
  match Collection.FindOne env false w with
  | (.error .ErrNoDocuments, w1) => (none, w1)
  | (.error err, w1) => (some ("failed to find last migration: " ++ err.Error), w1)
  | (.ok lastRecord, w1) =>
    match migrations.find? (fun m => m.Name == lastRecord.Name) with
    | none => (some ("migration " ++ lastRecord.Name ++ " not found in migration list"), w1)
    | some migration =>
      match callDown migration w1 with
      | (some err, w2) => (some ("rollback of " ++ migration.Name ++ " failed: " ++ err), w2)
      | (none, w2) =>
        match Manager.removeMigration env migration.Name w2 with
        | (some err, w3) =>
          (some ("failed to remove migration record " ++ migration.Name ++ ": " ++ err.Error), w3)
        | (none, w3) => (none, w3)

/-- Manager.GetStatus returns the list of applied migrations. -/
def Manager.GetStatus (env : Env) (w : World D) :
    Except String (List MigrationRecord) × World D :=
  match Collection.Find env true w with
  | (.error err, w1) => (.error ("failed to fetch migration status: " ++ err.Error), w1)
  | (.ok cursor, w1) =>
    match Cursor.All env cursor w1 with
    | (.error err, w2) => (.error ("failed to decode migration records: " ++ err.Error), w2)
    | (.ok records, w2) => (.ok records, w2)


/-! ## Definitions used to state the properties -/

/-- The world after a successful `recordMigration` of `n`. -/
def World.recorded (env : Env) (n : String) (w : World D) : World D :=
  { w with
    db := { w.db with migrations := w.db.migrations ++ [{ Name := n, AppliedAt := env.now w.ticks }] }
    ticks := w.ticks + 1
    ops := w.ops + 1 }

/-- The records a run writes for the names `ns`, the first at clock reading `t`. -/
def stamped (env : Env) (t : Nat) : List String → List MigrationRecord
  | [] => []
  | n :: ns => { Name := n, AppliedAt := env.now t } :: stamped env (t + 1) ns

/-- The order a sort on `applied_at` promises, whatever the store does with ties. -/
def keyOrdered (asc : Bool) (a b : MigrationRecord) : Prop :=
  if asc then a.AppliedAt ≤ b.AppliedAt else b.AppliedAt ≤ a.AppliedAt

/-- Spec side of C10, written from the words of the claim and not from
`Manager.Run`: the names of the migrations whose `Up` is to be invoked, in order,
and the database that is to be left, for a sequence met with database `db` at
clock reading `t` by a store that answers.  The sequence is walked in the order
the caller gives.  A migration that has a record at the moment it is reached is
passed over: no invocation, no change.  A migration that has none is invoked.
When it fails, it is the last one invoked; it fails when its `Up` returns an
error, or when the store, holding the unique index and by then a record of that
name, refuses its record.  Otherwise its record, stamped with the clock reading,
joins the collection and the walk goes on from the database its `Up` left. -/
def expectedUps (env : Env) :
    List (Migration D) → Database D → Nat → List String × Database D
  | [], db, _ => ([], db)
  | m :: rest, db, t =>
    if m.Name ∈ db.migrations.map (fun r => r.Name) then
      expectedUps env rest db t
    else if (m.Up db).1 ≠ none then
      ([m.Name], (m.Up db).2)
    else if (m.Up db).2.uniqueName && (m.Up db).2.migrations.any (fun r => r.Name == m.Name) then
      ([m.Name], (m.Up db).2)
    else
      (m.Name :: (expectedUps env rest
          { (m.Up db).2 with
            migrations := (m.Up db).2.migrations ++ [{ Name := m.Name, AppliedAt := env.now t }] }
          (t + 1)).1,
        (expectedUps env rest
          { (m.Up db).2 with
            migrations := (m.Up db).2.migrations ++ [{ Name := m.Name, AppliedAt := env.now t }] }
          (t + 1)).2)

/-! ## Sample inputs -/

/-- A database with application data `n`, no tracking records, and the unique
index that `Initialize` installs. -/
def freshWorld (n : Nat) : World Nat :=
  { db := { migrations := [], uniqueName := true, data := n }, ticks := 0, ops := 0, calls := [] }

/-- A world whose tracking collection holds the given records. -/
def worldWith (records : List MigrationRecord) : World Nat :=
  { db := { migrations := records, uniqueName := true, data := 0 }, ticks := 0, ops := 0, calls := [] }

/-- A migration over a counter: `Up` adds `k`, `Down` takes it away again. -/
def addStep (name : String) (k : Nat) : Migration Nat :=
  { Name := name
    Up := fun db => (none, { db with data := db.data + k })
    Down := fun db => (none, { db with data := db.data - k }) }

/-- A migration whose `Up` and `Down` fail and change nothing. -/
def failingStep (name : String) (cause : String) : Migration Nat :=
  { Name := name
    Up := fun db => (some cause, db)
    Down := fun db => (some cause, db) }

/-- A migration over a counter during whose `Up` a record with its name lands in
the tracking collection, as happens when another applier completes the same
migration at that moment. -/
def racedStep (name : String) (k : Nat) (stamp : Int) : Migration Nat :=
  { Name := name
    Up := fun db => (none, { db with
      migrations := db.migrations ++ [{ Name := name, AppliedAt := stamp }]
      data := db.data + k })
    Down := fun db => (none, { db with data := db.data - k }) }

/-- A world whose tracking collection holds the given records and has no unique
index: `Initialize` was never called. -/
def unindexedWorld (records : List MigrationRecord) : World Nat :=
  { db := { migrations := records, uniqueName := false, data := 0 }, ticks := 0, ops := 0, calls := [] }

/-- A reliable store and a clock that advances by one at each reading. -/
def steadyEnv : Env :=
  { now := fun n => n, fault := fun _ => none, tie := fun _ _ => true }

/-- A reliable store that returns documents with equal sort keys latest insert
first, and a clock whose readings all fall on one stored timestamp. -/
def tiedEnv : Env :=
  { now := fun _ => 1700000000000, fault := fun _ => none, tie := fun _ _ => false }

/-! ## The store driver and the helpers, case by case -/

section Helpers

variable (env : Env)

theorem mem_names_iff (w : World D) (n : String) :
    n ∈ w.names ↔ ∃ r ∈ w.db.migrations, r.Name = n := by
  simp [World.names]

theorem isApplied_of_fault (n : String) (w : World D) (e : StoreError)
    (h : env.fault w.ops = some e) :
    Manager.isApplied env n w = (.error e, w.called) := by
  unfold Manager.isApplied Collection.CountDocuments
  simp [h]

theorem isApplied_of_reply (n : String) (w : World D) (h : env.fault w.ops = none) :
    Manager.isApplied env n w = (.ok (decide (n ∈ w.names)), w.called) := by
  unfold Manager.isApplied Collection.CountDocuments
  simp only [h]
  congr 2
  rw [decide_eq_decide, gt_iff_lt, List.countP_pos_iff, mem_names_iff]
  simp


theorem recordMigration_of_fresh (n : String) (w : World D) (h : env.fault w.ops = none)
    (hn : n ∉ w.names) :
    Manager.recordMigration env n w = (none, w.recorded env n) := by
  have : ∀ r ∈ w.db.migrations, ¬ r.Name = n := by
    intro r hr he
    exact hn ((mem_names_iff w n).2 ⟨r, hr, he⟩)
  simp [Manager.recordMigration, timeNow, Collection.InsertOne, h, World.called, World.recorded]
  intro _ r hr
  exact this r hr

/-- Whatever the store replies, `recordMigration` leaves the log alone and either
appends the one record or leaves the collection as it is. -/
theorem recordMigration_snd (n : String) (w : World D) :
    (Manager.recordMigration env n w).2 = w.recorded env n ∨
    (Manager.recordMigration env n w).2 = { w with ticks := w.ticks + 1, ops := w.ops + 1 } := by
  unfold Manager.recordMigration timeNow Collection.InsertOne
  cases h : env.fault w.ops
  · simp only [h]
    split
    · right; rfl
    · left; rfl
  · right; simp [h, World.called]

theorem recordMigration_of_ok (n : String) (w : World D)
    (h : (Manager.recordMigration env n w).1 = none) :
    (Manager.recordMigration env n w).2 = w.recorded env n := by
  revert h
  unfold Manager.recordMigration timeNow Collection.InsertOne
  cases hf : env.fault w.ops
  · simp only [hf]
    split
    · simp
    · intro _; rfl
  · simp [hf]


/-! ## `Run`, one migration at a time -/

theorem Run_of_check_fault (m : Migration D) (rest : List (Migration D)) (w : World D)
    (e : StoreError) (h : env.fault w.ops = some e) :
    Manager.Run env (m :: rest) w =
      (some ("failed to check migration status for " ++ m.Name ++ ": " ++ e.Error), w.called) := by
  simp only [Manager.Run, isApplied_of_fault env m.Name w e h]

theorem Run_of_recorded (m : Migration D) (rest : List (Migration D)) (w : World D)
    (h : env.fault w.ops = none) (hn : m.Name ∈ w.names) :
    Manager.Run env (m :: rest) w = Manager.Run env rest w.called := by
  simp only [Manager.Run, isApplied_of_reply env m.Name w h, hn, decide_True]

theorem Run_of_up_fail (m : Migration D) (rest : List (Migration D)) (w : World D)
    (h : env.fault w.ops = none) (hn : m.Name ∉ w.names) (e : String)
    (hu : (m.Up w.db).1 = some e) :
    Manager.Run env (m :: rest) w =
      (some ("migration " ++ m.Name ++ " failed: " ++ e), (callUp m w.called).2) := by
  have hc : callUp m w.called = (some e, (callUp m w.called).2) := by
    simp [callUp, World.called, hu]
  simp only [Manager.Run, isApplied_of_reply env m.Name w h, hn, decide_False]
  rw [hc]

theorem Run_of_record_fail (m : Migration D) (rest : List (Migration D)) (w : World D)
    (h : env.fault w.ops = none) (hn : m.Name ∉ w.names)
    (hu : (m.Up w.db).1 = none) (e : StoreError)
    (hr : (Manager.recordMigration env m.Name (callUp m w.called).2).1 = some e) :
    Manager.Run env (m :: rest) w =
      (some ("failed to record migration " ++ m.Name ++ ": " ++ e.Error),
        (Manager.recordMigration env m.Name (callUp m w.called).2).2) := by
  have hc : callUp m w.called = (none, (callUp m w.called).2) := by
    simp [callUp, World.called, hu]
  have hr2 : Manager.recordMigration env m.Name (callUp m w.called).2 =
      (some e, (Manager.recordMigration env m.Name (callUp m w.called).2).2) := by
    rw [← hr]
  simp only [Manager.Run, isApplied_of_reply env m.Name w h, hn, decide_False]
  rw [hc]
  simp only []
  rw [hr2]

theorem Run_of_applied (m : Migration D) (rest : List (Migration D)) (w : World D)
    (h : env.fault w.ops = none) (hn : m.Name ∉ w.names)
    (hu : (m.Up w.db).1 = none)
    (hr : (Manager.recordMigration env m.Name (callUp m w.called).2).1 = none) :
    Manager.Run env (m :: rest) w =
      Manager.Run env rest ((callUp m w.called).2.recorded env m.Name) := by
  have hc : callUp m w.called = (none, (callUp m w.called).2) := by
    simp [callUp, World.called, hu]
  have hr2 : Manager.recordMigration env m.Name (callUp m w.called).2 =
      (none, (callUp m w.called).2.recorded env m.Name) := by
    rw [← recordMigration_of_ok env _ _ hr, ← hr]
  simp only [Manager.Run, isApplied_of_reply env m.Name w h, hn, decide_False]
  rw [hc]
  simp only []
  rw [hr2]


theorem callUp_names (m : Migration D) (w : World D) (hk : KeepsTracking m.Up) :
    (callUp m w).2.names = w.names := by
  simp [callUp, World.names, hk w.db]

theorem callUp_migrations (m : Migration D) (w : World D) (hk : KeepsTracking m.Up) :
    (callUp m w).2.db.migrations = w.db.migrations := by
  simp [callUp, hk w.db]

/-- With migrations that leave the tracking collection alone, `Run` only ever
appends to it: the documents it finds stay, in place, at the front. -/
theorem Run_keeps_records (R : List (Migration D)) (w : World D)
    (hk : ∀ m ∈ R, KeepsTracking m.Up) :
    w.db.migrations <+: (Manager.Run env R w).2.db.migrations := by
  induction R generalizing w with
  | nil => simp [Manager.Run]
  | cons m rest ih =>
    have hrest : ∀ m ∈ rest, KeepsTracking m.Up := fun x hx => hk x (List.mem_cons_of_mem _ hx)
    have hm : KeepsTracking m.Up := hk m (List.mem_cons_self _ _)
    cases hf : env.fault w.ops with
    | some e => rw [Run_of_check_fault env m rest w e hf]; exact List.prefix_refl _
    | none =>
      by_cases hn : m.Name ∈ w.names
      · rw [Run_of_recorded env m rest w hf hn]
        exact ih w.called hrest
      · cases hu : (m.Up w.db).1 with
        | some e =>
          rw [Run_of_up_fail env m rest w hf hn e hu, callUp_migrations m _ hm]
          exact List.prefix_refl _
        | none =>
          cases hr : (Manager.recordMigration env m.Name (callUp m w.called).2).1 with
          | some e =>
            rw [Run_of_record_fail env m rest w hf hn hu e hr]
            rcases recordMigration_snd env m.Name (callUp m w.called).2 with h | h
            · rw [h]
              simp only [World.recorded, callUp_migrations m _ hm]
              exact List.prefix_append _ _
            · rw [h]
              simp only [callUp_migrations m _ hm]
              exact List.prefix_refl _
          | none =>
            rw [Run_of_applied env m rest w hf hn hu hr]
            refine List.IsPrefix.trans ?_ (ih _ hrest)
            simp only [World.recorded, callUp_migrations m _ hm]
            exact List.prefix_append _ _

theorem names_of_extension (w w2 : World D) (h : w.db.migrations <+: w2.db.migrations)
    (n : String) (hn : n ∈ w.names) : n ∈ w2.names := by
  obtain ⟨t, ht⟩ := h
  simp only [World.names, ← ht, List.map_append, List.mem_append]
  exact Or.inl hn

/-- A successful `Run` leaves a record for every migration of the sequence. -/
theorem Run_ok_recorded (R : List (Migration D)) (w : World D)
    (hk : ∀ m ∈ R, KeepsTracking m.Up) (h : (Manager.Run env R w).1 = none) :
    ∀ m ∈ R, m.Name ∈ (Manager.Run env R w).2.names := by
  induction R generalizing w with
  | nil => simp
  | cons m rest ih =>
    have hrest : ∀ m ∈ rest, KeepsTracking m.Up := fun x hx => hk x (List.mem_cons_of_mem _ hx)
    have hm : KeepsTracking m.Up := hk m (List.mem_cons_self _ _)
    cases hf : env.fault w.ops with
    | some e => rw [Run_of_check_fault env m rest w e hf] at h; simp at h
    | none =>
      by_cases hn : m.Name ∈ w.names
      · rw [Run_of_recorded env m rest w hf hn] at h ⊢
        intro x hx
        rcases List.mem_cons.1 hx with rfl | hx
        · exact names_of_extension w.called _ (Run_keeps_records env rest w.called hrest) _ hn
        · exact ih w.called hrest h x hx
      · cases hu : (m.Up w.db).1 with
        | some e => rw [Run_of_up_fail env m rest w hf hn e hu] at h; simp at h
        | none =>
          cases hr : (Manager.recordMigration env m.Name (callUp m w.called).2).1 with
          | some e => rw [Run_of_record_fail env m rest w hf hn hu e hr] at h; simp at h
          | none =>
            rw [Run_of_applied env m rest w hf hn hu hr] at h ⊢
            intro x hx
            rcases List.mem_cons.1 hx with rfl | hx
            · refine names_of_extension _ _ (Run_keeps_records env rest _ hrest) _ ?_
              simp [World.names, World.recorded]
            · exact ih _ hrest h x hx


/-! ## The sort of the store -/

theorem sortInsert_perm (asc : Bool) (a : MigrationRecord) (l : List MigrationRecord) :
    (sortInsert env asc a l).Perm (a :: l) := by
  induction l with
  | nil => exact List.Perm.refl _
  | cons b l ih =>
    unfold sortInsert
    split
    · exact List.Perm.refl _
    · exact (List.Perm.cons b ih).trans (List.Perm.swap a b l)

theorem sortByAppliedAt_perm (asc : Bool) (l : List MigrationRecord) :
    (sortByAppliedAt env asc l).Perm l := by
  induction l with
  | nil => exact List.Perm.refl _
  | cons a l ih =>
    unfold sortByAppliedAt
    exact (sortInsert_perm env asc a _).trans (List.Perm.cons a ih)

theorem keyOrdered_of_sortsBefore (asc : Bool) (a b : MigrationRecord)
    (h : sortsBefore env asc a b = true) : keyOrdered asc a b := by
  cases asc <;> simp [sortsBefore, keyOrdered] at h ⊢ <;> omega

theorem keyOrdered_of_not_sortsBefore (asc : Bool) (a b : MigrationRecord)
    (h : ¬ sortsBefore env asc a b = true) : keyOrdered asc b a := by
  cases asc <;> simp [sortsBefore, keyOrdered] at h ⊢ <;> omega

theorem keyOrdered_trans (asc : Bool) (a b c : MigrationRecord)
    (h1 : keyOrdered asc a b) (h2 : keyOrdered asc b c) : keyOrdered asc a c := by
  cases asc <;> simp [keyOrdered] at h1 h2 ⊢ <;> omega

theorem sortInsert_sorted (asc : Bool) (a : MigrationRecord) (l : List MigrationRecord)
    (hl : l.Pairwise (keyOrdered asc)) :
    (sortInsert env asc a l).Pairwise (keyOrdered asc) := by
  induction l with
  | nil => simp [sortInsert]
  | cons b l ih =>
    rw [List.pairwise_cons] at hl
    unfold sortInsert
    split
    · rename_i hab
      have hab2 := keyOrdered_of_sortsBefore env asc a b hab
      refine List.Pairwise.cons ?_ (List.Pairwise.cons hl.1 hl.2)
      intro c hc
      rcases List.mem_cons.1 hc with rfl | hc
      · exact hab2
      · exact keyOrdered_trans asc a b c hab2 (hl.1 c hc)
    · rename_i hab
      have hba := keyOrdered_of_not_sortsBefore env asc a b hab
      refine List.Pairwise.cons ?_ (ih hl.2)
      intro c hc
      rcases List.mem_cons.1 ((sortInsert_perm env asc a l).mem_iff.1 hc) with rfl | hc
      · exact hba
      · exact hl.1 c hc

theorem sortByAppliedAt_sorted (asc : Bool) (l : List MigrationRecord) :
    (sortByAppliedAt env asc l).Pairwise (keyOrdered asc) := by
  induction l with
  | nil => simp [sortByAppliedAt]
  | cons a l ih =>
    unfold sortByAppliedAt
    exact sortInsert_sorted env asc a _ ih

/-- The first document of a descending sort is in the collection and no document
has a later `applied_at`. -/
theorem sortByAppliedAt_head_max (l tl : List MigrationRecord) (r : MigrationRecord)
    (h : sortByAppliedAt env false l = r :: tl) :
    r ∈ l ∧ ∀ x ∈ l, x.AppliedAt ≤ r.AppliedAt := by
  have hp := sortByAppliedAt_perm env false l
  have hs := sortByAppliedAt_sorted env false l
  rw [h] at hp hs
  refine ⟨hp.mem_iff.1 (List.mem_cons_self _ _), ?_⟩
  intro x hx
  rcases List.mem_cons.1 (hp.mem_iff.2 hx) with rfl | hx
  · exact le_refl _
  · have := (List.pairwise_cons.1 hs).1 x hx
    simpa [keyOrdered] using this

/-- A collection whose `applied_at` strictly increase in natural order is returned
in natural order by an ascending sort. -/
theorem sortByAppliedAt_of_increasing (l : List MigrationRecord)
    (h : l.Pairwise (fun a b => a.AppliedAt < b.AppliedAt)) :
    sortByAppliedAt env true l = l := by
  induction l with
  | nil => rfl
  | cons a l ih =>
    rw [List.pairwise_cons] at h
    unfold sortByAppliedAt
    rw [ih h.2]
    cases l with
    | nil => rfl
    | cons b l =>
      have := h.1 b (List.mem_cons_self _ _)
      simp [sortInsert, sortsBefore, this]


/-! ## Whole runs -/

/-- A run over migrations that are all recorded, the store answering: nothing is
invoked and nothing changes but the count of driver calls. -/
theorem Run_of_all_recorded (R : List (Migration D)) (w : World D)
    (hf : ∀ n, w.ops ≤ n → env.fault n = none)
    (hall : ∀ m ∈ R, m.Name ∈ w.names) :
    Manager.Run env R w = (none, { w with ops := w.ops + R.length }) := by
  induction R generalizing w with
  | nil => simp [Manager.Run]
  | cons m rest ih =>
    rw [Run_of_recorded env m rest w (hf _ (le_refl _)) (hall m (List.mem_cons_self _ _))]
    rw [ih w.called (fun n hle => hf n (by simp [World.called] at hle; omega))
      (fun x hx => hall x (List.mem_cons_of_mem _ hx))]
    simp [World.called]
    omega

/-- A run over `pre ++ post` is the run over `pre` followed, when that one
succeeded, by the run over `post` from the world it left. -/
theorem Run_append (pre post : List (Migration D)) (w : World D) :
    Manager.Run env (pre ++ post) w =
      if (Manager.Run env pre w).1 = none then Manager.Run env post (Manager.Run env pre w).2
      else Manager.Run env pre w := by
  induction pre generalizing w with
  | nil => simp [Manager.Run]
  | cons m rest ih =>
    rw [List.cons_append]
    cases hf : env.fault w.ops with
    | some e =>
      rw [Run_of_check_fault env m _ w e hf, Run_of_check_fault env m _ w e hf]; simp
    | none =>
      by_cases hn : m.Name ∈ w.names
      · rw [Run_of_recorded env m _ w hf hn, Run_of_recorded env m _ w hf hn]
        exact ih w.called
      · cases hu : (m.Up w.db).1 with
        | some e =>
          rw [Run_of_up_fail env m _ w hf hn e hu, Run_of_up_fail env m _ w hf hn e hu]; simp
        | none =>
          cases hr : (Manager.recordMigration env m.Name (callUp m w.called).2).1 with
          | some e =>
            rw [Run_of_record_fail env m _ w hf hn hu e hr,
              Run_of_record_fail env m _ w hf hn hu e hr]
            simp
          | none =>
            rw [Run_of_applied env m _ w hf hn hu hr, Run_of_applied env m _ w hf hn hu hr]
            exact ih _

/-- The log after a run over one migration that has no record when the store
answers the check: exactly one more entry, the call of its `Up`. -/
theorem Run_single_calls (m : Migration D) (w : World D)
    (hf : env.fault w.ops = none) (hn : m.Name ∉ w.names) :
    (Manager.Run env [m] w).2.calls = w.calls ++ [Call.up m.Name] := by
  cases hu : (m.Up w.db).1 with
  | some e => rw [Run_of_up_fail env m _ w hf hn e hu]; simp [callUp, World.called]
  | none =>
    cases hr : (Manager.recordMigration env m.Name (callUp m w.called).2).1 with
    | some e =>
      rw [Run_of_record_fail env m _ w hf hn hu e hr]
      rcases recordMigration_snd env m.Name (callUp m w.called).2 with h | h <;>
        rw [h] <;> simp [World.recorded, callUp, World.called]
    | none =>
      rw [Run_of_applied env m _ w hf hn hu hr]
      simp [Manager.Run, World.recorded, callUp, World.called]

/-! ## `Rollback`, case by case -/

theorem FindOne_of_reply (asc : Bool) (w : World D) (h : env.fault w.ops = none)
    (r : MigrationRecord) (tl : List MigrationRecord)
    (hs : sortByAppliedAt env asc w.db.migrations = r :: tl) :
    Collection.FindOne env asc w = (.ok r, w.called) := by
  simp [Collection.FindOne, h, hs]

theorem Rollback_of_missing (ms : List (Migration D)) (w : World D)
    (h : env.fault w.ops = none) (r : MigrationRecord) (tl : List MigrationRecord)
    (hs : sortByAppliedAt env false w.db.migrations = r :: tl)
    (hm : ms.find? (fun m => m.Name == r.Name) = none) :
    Manager.Rollback env ms w =
      (some ("migration " ++ r.Name ++ " not found in migration list"), w.called) := by
  simp only [Manager.Rollback, FindOne_of_reply env false w h r tl hs, hm]

theorem Rollback_of_down_fail (ms : List (Migration D)) (w : World D)
    (h : env.fault w.ops = none) (r : MigrationRecord) (tl : List MigrationRecord)
    (hs : sortByAppliedAt env false w.db.migrations = r :: tl)
    (m : Migration D) (hm : ms.find? (fun m => m.Name == r.Name) = some m)
    (e : String) (hd : (m.Down w.db).1 = some e) :
    Manager.Rollback env ms w =
      (some ("rollback of " ++ m.Name ++ " failed: " ++ e), (callDown m w.called).2) := by
  have hc : callDown m w.called = (some e, (callDown m w.called).2) := by
    simp [callDown, World.called, hd]
  simp only [Manager.Rollback, FindOne_of_reply env false w h r tl hs, hm]
  rw [hc]

/-- What `recordMigration` does when the store answers: the insert is refused
with a duplicate-key error when the unique index exists and the name has a
record, and the record is appended otherwise. -/
theorem recordMigration_of_reply (n : String) (w : World D) (h : env.fault w.ops = none) :
    Manager.recordMigration env n w =
      if (w.db.uniqueName && w.db.migrations.any (fun r => r.Name == n)) = true then
        (some StoreError.DuplicateKey, { w with ticks := w.ticks + 1, ops := w.ops + 1 })
      else (none, w.recorded env n) := by
  simp only [Manager.recordMigration, timeNow, Collection.InsertOne, h, World.called,
    World.recorded]

theorem expectedUps_sublist (R : List (Migration D)) (db : Database D) (t : Nat) :
    (expectedUps env R db t).1.Sublist (R.map (fun m => m.Name)) := by
  induction R generalizing db t with
  | nil => simp [expectedUps]
  | cons m rest ih =>
    simp only [expectedUps, List.map_cons]
    split
    · exact List.Sublist.cons _ (ih _ _)
    · split
      · exact List.Sublist.cons₂ _ (List.nil_sublist _)
      · split
        · exact List.Sublist.cons₂ _ (List.nil_sublist _)
        · exact List.Sublist.cons₂ _ (ih _ _)

/-- `Run`, the store answering, makes the calls and leaves the database that
`expectedUps` describes. -/
theorem Run_refines_expectedUps (R : List (Migration D)) (w : World D)
    (hstore : ∀ n, env.fault n = none) :
    (Manager.Run env R w).2.calls = w.calls ++ (expectedUps env R w.db w.ticks).1.map Call.up ∧
    (Manager.Run env R w).2.db = (expectedUps env R w.db w.ticks).2 := by
  induction R generalizing w with
  | nil => simp [Manager.Run, expectedUps]
  | cons m rest ih =>
    by_cases hn : m.Name ∈ w.names
    · have hn2 : m.Name ∈ w.db.migrations.map (fun r => r.Name) := hn
      rw [Run_of_recorded env m rest w (hstore _) hn, expectedUps, if_pos hn2]
      exact ih w.called
    · have hn2 : m.Name ∉ w.db.migrations.map (fun r => r.Name) := hn
      rw [expectedUps, if_neg hn2]
      cases hu : (m.Up w.db).1 with
      | some e =>
        rw [Run_of_up_fail env m rest w (hstore _) hn e hu, if_pos (by simp)]
        exact ⟨rfl, rfl⟩
      | none =>
        rw [if_neg (by simp)]
        have hrec := recordMigration_of_reply env m.Name (callUp m w.called).2 (hstore _)
        by_cases hdup : ((m.Up w.db).2.uniqueName &&
            (m.Up w.db).2.migrations.any (fun r => r.Name == m.Name)) = true
        · have hdup2 : ((callUp m w.called).2.db.uniqueName &&
              (callUp m w.called).2.db.migrations.any (fun r => r.Name == m.Name)) = true := hdup
          rw [if_pos hdup2] at hrec
          rw [Run_of_record_fail env m rest w (hstore _) hn hu StoreError.DuplicateKey
            (by rw [hrec]), if_pos hdup, hrec]
          exact ⟨rfl, rfl⟩
        · have hdup2 : ¬ ((callUp m w.called).2.db.uniqueName &&
              (callUp m w.called).2.db.migrations.any (fun r => r.Name == m.Name)) = true := hdup
          rw [if_neg hdup2] at hrec
          rw [Run_of_applied env m rest w (hstore _) hn hu (by rw [hrec]), if_neg hdup]
          have key := ih ((callUp m w.called).2.recorded env m.Name)
          refine ⟨?_, key.2⟩
          rw [key.1]
          simp [callUp, World.recorded, World.called]

/-- A successful run over migrations none of which is recorded, with distinct
names: each was invoked and recorded, in the order given, at successive clock
readings. -/
theorem Run_ok_of_fresh (R : List (Migration D)) (w : World D)
    (hok : (Manager.Run env R w).1 = none)
    (hnd : (R.map (fun m => m.Name)).Nodup)
    (hnew : ∀ m ∈ R, m.Name ∉ w.names)
    (hk : ∀ m ∈ R, KeepsTracking m.Up) :
    (Manager.Run env R w).2.db.migrations =
      w.db.migrations ++ stamped env w.ticks (R.map (fun m => m.Name)) ∧
    (Manager.Run env R w).2.calls = w.calls ++ R.map (fun m => Call.up m.Name) := by
  induction R generalizing w with
  | nil => simp [Manager.Run, stamped]
  | cons m rest ih =>
    have hm : KeepsTracking m.Up := hk m (List.mem_cons_self _ _)
    have hn : m.Name ∉ w.names := hnew m (List.mem_cons_self _ _)
    cases hf : env.fault w.ops with
    | some e => rw [Run_of_check_fault env m rest w e hf] at hok; simp at hok
    | none =>
      cases hu : (m.Up w.db).1 with
      | some e => rw [Run_of_up_fail env m rest w hf hn e hu] at hok; simp at hok
      | none =>
        cases hr : (Manager.recordMigration env m.Name (callUp m w.called).2).1 with
        | some e => rw [Run_of_record_fail env m rest w hf hn hu e hr] at hok; simp at hok
        | none =>
          rw [Run_of_applied env m rest w hf hn hu hr] at hok ⊢
          rw [List.map_cons, List.nodup_cons] at hnd
          have key := ih ((callUp m w.called).2.recorded env m.Name) hok hnd.2
            (by
              intro x hx hmem
              have hmem2 : x.Name ∈ w.names ++ [m.Name] := by
                simpa [World.names, World.recorded, callUp_migrations m _ hm, World.called]
                  using hmem
              rcases List.mem_append.1 hmem2 with h | h
              · exact hnew x (List.mem_cons_of_mem _ hx) h
              · rw [List.mem_singleton] at h
                exact hnd.1 (h ▸ List.mem_map_of_mem (fun m => m.Name) hx))
            (fun x hx => hk x (List.mem_cons_of_mem _ hx))
          refine ⟨?_, ?_⟩
          · rw [key.1]
            simp [World.recorded, hm w.db, World.called, stamped, callUp]
          · rw [key.2]
            simp [World.recorded, callUp, World.called]

theorem FindOne_ok (asc : Bool) (w : World D) (r : MigrationRecord)
    (h : (Collection.FindOne env asc w).1 = .ok r) :
    env.fault w.ops = none ∧ ∃ tl, sortByAppliedAt env asc w.db.migrations = r :: tl := by
  unfold Collection.FindOne at h
  cases hf : env.fault w.ops with
  | some e => simp [hf] at h
  | none =>
    refine ⟨rfl, ?_⟩
    cases hs : sortByAppliedAt env asc w.db.migrations with
    | nil => simp [hf, hs] at h
    | cons a tl =>
      simp only [hf, hs] at h
      injection h with h
      exact ⟨tl, by rw [h]⟩

theorem GetStatus_of_reply (w : World D)
    (h : env.fault w.ops = none) (h2 : env.fault (w.ops + 1) = none) :
    Manager.GetStatus env w =
      (.ok (sortByAppliedAt env true w.db.migrations), { w with ops := w.ops + 2 }) := by
  simp [Manager.GetStatus, Collection.Find, Cursor.All, h, h2, World.called]

/-! ## Distinct names -/

/-- Whatever the store replies, `recordMigration` of a name that has no record
leaves the names distinct. -/
theorem recordMigration_names_nodup (n : String) (w : World D)
    (hn : n ∉ w.names) (h : w.names.Nodup) :
    (Manager.recordMigration env n w).2.names.Nodup := by
  rcases recordMigration_snd env n w with hr | hr <;> rw [hr]
  · have : (w.recorded env n).names = w.names ++ [n] := by
      simp [World.names, World.recorded]
    rw [this]
    exact List.Nodup.append h (List.nodup_singleton n) (by
      intro x hx hx2
      rw [List.mem_singleton] at hx2
      exact hn (hx2 ▸ hx))
  · exact h

/-- Whatever the store replies, `Run` over migrations that leave the tracking
collection alone keeps the recorded names distinct. -/
theorem Run_names_nodup (R : List (Migration D)) (w : World D)
    (hk : ∀ m ∈ R, KeepsTracking m.Up) (h : w.names.Nodup) :
    (Manager.Run env R w).2.names.Nodup := by
  induction R generalizing w with
  | nil => simpa [Manager.Run] using h
  | cons m rest ih =>
    have hrest : ∀ m ∈ rest, KeepsTracking m.Up := fun x hx => hk x (List.mem_cons_of_mem _ hx)
    have hm : KeepsTracking m.Up := hk m (List.mem_cons_self _ _)
    cases hf : env.fault w.ops with
    | some e => rw [Run_of_check_fault env m rest w e hf]; exact h
    | none =>
      by_cases hn : m.Name ∈ w.names
      · rw [Run_of_recorded env m rest w hf hn]
        exact ih w.called hrest h
      · have hn2 : m.Name ∉ (callUp m w.called).2.names := by
          rw [callUp_names m _ hm]; exact hn
        have h2 : (callUp m w.called).2.names.Nodup := by
          rw [callUp_names m _ hm]; exact h
        have h3 := recordMigration_names_nodup env m.Name _ hn2 h2
        cases hu : (m.Up w.db).1 with
        | some e => rw [Run_of_up_fail env m rest w hf hn e hu]; exact h2
        | none =>
          cases hr : (Manager.recordMigration env m.Name (callUp m w.called).2).1 with
          | some e => rw [Run_of_record_fail env m rest w hf hn hu e hr]; exact h3
          | none =>
            rw [Run_of_applied env m rest w hf hn hu hr]
            rw [recordMigration_of_ok env _ _ hr] at h3
            exact ih _ hrest h3

theorem removeMigration_names_nodup (n : String) (w : World D) (h : w.names.Nodup) :
    (Manager.removeMigration env n w).2.names.Nodup := by
  unfold Manager.removeMigration Collection.DeleteOne
  cases hf : env.fault w.ops with
  | some e => exact h
  | none =>
    exact List.Nodup.sublist ((List.eraseP_sublist w.db.migrations).map _) h

theorem FindOne_snd (asc : Bool) (w : World D) :
    (Collection.FindOne env asc w).2 = w.called := by
  unfold Collection.FindOne
  cases env.fault w.ops with
  | some e => rfl
  | none => cases sortByAppliedAt env asc w.db.migrations <;> rfl

/-- Whatever the store replies, `Rollback` over migrations whose `Down` leave the
tracking collection alone keeps the recorded names distinct. -/
theorem Rollback_names_nodup (ms : List (Migration D)) (w : World D)
    (hk : ∀ m ∈ ms, KeepsTracking m.Down) (h : w.names.Nodup) :
    (Manager.Rollback env ms w).2.names.Nodup := by
  have hsnd := FindOne_snd env false w
  unfold Manager.Rollback
  rcases hfo : Collection.FindOne env false w with ⟨res, w1⟩
  rw [hfo] at hsnd
  simp only at hsnd
  subst hsnd
  cases res with
  | error e => cases e <;> exact h
  | ok r =>
    simp only
    cases hfind : ms.find? (fun m => m.Name == r.Name) with
    | none => exact h
    | some m =>
      have hm : KeepsTracking m.Down := hk m (List.mem_of_find?_eq_some hfind)
      have h2 : (callDown m w.called).2.names.Nodup := by
        have : (callDown m w.called).2.names = w.names := by
          simp [callDown, World.names, World.called, hm w.db]
        rw [this]; exact h
      have h3 := removeMigration_names_nodup env m.Name _ h2
      simp only
      cases hd : (m.Down w.db).1 with
      | some e =>
        have hc : callDown m w.called = (some e, (callDown m w.called).2) := by
          simp [callDown, World.called, hd]
        rw [hc]; exact h2
      | none =>
        have hc : callDown m w.called = (none, (callDown m w.called).2) := by
          simp [callDown, World.called, hd]
        rw [hc]
        simp only
        rcases hrm : Manager.removeMigration env m.Name (callDown m w.called).2 with ⟨res2, w3⟩
        rw [hrm] at h3
        cases res2 <;> exact h3

end Helpers

theorem addStep_keeps (name : String) (k : Nat) :
    KeepsTracking (addStep name k).Up ∧ KeepsTracking (addStep name k).Down :=
  ⟨fun _ => rfl, fun _ => rfl⟩

theorem failingStep_keeps (name cause : String) :
    KeepsTracking (failingStep name cause).Up ∧ KeepsTracking (failingStep name cause).Down :=
  ⟨fun _ => rfl, fun _ => rfl⟩

/-! ## The claims -/

/-- C2. `Run` is idempotent.  When a first `Run(R)` returned success (the
migrations leaving the tracking collection alone, as the data model demands) and
the store answers the checks of the second call, a second `Run(R)` right after
it returns success, invokes no `Up`, and leaves the database, the applied
records included, exactly as the first call left it. -/
theorem Run_twice_is_idempotent (env : Env) (R : List (Migration D)) (w : World D)
    (hkeep : ∀ m ∈ R, KeepsTracking m.Up)
    (hfirst : (Manager.Run env R w).1 = none)
    (hstore : ∀ n, (Manager.Run env R w).2.ops ≤ n → env.fault n = none) :
    (Manager.Run env R (Manager.Run env R w).2).1 = none ∧
    (Manager.Run env R (Manager.Run env R w).2).2.calls = (Manager.Run env R w).2.calls ∧
    (Manager.Run env R (Manager.Run env R w).2).2.db = (Manager.Run env R w).2.db := by
  rw [Run_of_all_recorded env R (Manager.Run env R w).2 hstore
    (Run_ok_recorded env R w hkeep hfirst)]
  exact ⟨rfl, rfl, rfl⟩

/-- The property of C2 for a registry of two migrations on a fresh database. -/
theorem Run_twice_is_idempotent_witness :
    (Manager.Run steadyEnv [addStep "A" 1, addStep "B" 2]
      (Manager.Run steadyEnv [addStep "A" 1, addStep "B" 2] (freshWorld 0)).2).1 = none ∧
    (Manager.Run steadyEnv [addStep "A" 1, addStep "B" 2]
      (Manager.Run steadyEnv [addStep "A" 1, addStep "B" 2] (freshWorld 0)).2).2.calls =
      (Manager.Run steadyEnv [addStep "A" 1, addStep "B" 2] (freshWorld 0)).2.calls ∧
    (Manager.Run steadyEnv [addStep "A" 1, addStep "B" 2]
      (Manager.Run steadyEnv [addStep "A" 1, addStep "B" 2] (freshWorld 0)).2).2.db =
      (Manager.Run steadyEnv [addStep "A" 1, addStep "B" 2] (freshWorld 0)).2.db :=
  Run_twice_is_idempotent steadyEnv [addStep "A" 1, addStep "B" 2] (freshWorld 0)
    (by intro m hm; simp at hm; rcases hm with rfl | rfl <;> exact (addStep_keeps _ _).1)
    (by decide)
    (fun _ _ => rfl)

/-- C3. For a registry `[A, B]` run against an empty tracking store where `A.Up`
succeeds and `B.Up` fails (both leaving the tracking collection alone, the store
answering): `Run` returns the error `migration B failed: cause`, the names
recorded are exactly `[A]`, the calls made are `A.Up` then `B.Up`, and a further
`Run([A, B])` skips `A` and invokes `B.Up` and nothing else. -/
theorem Run_stops_at_failing_Up (env : Env) (A B : Migration D) (w : World D) (cause : String)
    (hne : A.Name ≠ B.Name)
    (hempty : w.db.migrations = [])
    (hkeepA : KeepsTracking A.Up) (hkeepB : KeepsTracking B.Up)
    (hstore : ∀ n, env.fault n = none)
    (hA : (A.Up w.db).1 = none)
    (hB : (B.Up (Manager.Run env [A] w).2.db).1 = some cause) :
    (Manager.Run env [A, B] w).1 = some ("migration " ++ B.Name ++ " failed: " ++ cause) ∧
    (Manager.Run env [A, B] w).2.names = [A.Name] ∧
    (Manager.Run env [A, B] w).2.calls = w.calls ++ [Call.up A.Name, Call.up B.Name] ∧
    (Manager.Run env [A, B] (Manager.Run env [A, B] w).2).2.calls =
      (Manager.Run env [A, B] w).2.calls ++ [Call.up B.Name] := by
  have hnA : A.Name ∉ w.names := by simp [World.names, hempty]
  have hnA2 : A.Name ∉ (callUp A w.called).2.names := by rw [callUp_names A _ hkeepA]; exact hnA
  have hrec := recordMigration_of_fresh env A.Name (callUp A w.called).2 (hstore _) hnA2
  have hstep : ∀ rest, Manager.Run env (A :: rest) w =
      Manager.Run env rest ((callUp A w.called).2.recorded env A.Name) :=
    fun rest => Run_of_applied env A rest w (hstore _) hnA hA (by rw [hrec])
  have hnames : ((callUp A w.called).2.recorded env A.Name).names = [A.Name] := by
    have := callUp_names A w.called hkeepA
    simp only [World.names] at this
    simp [World.names, World.recorded, this]
    simp [World.called, hempty]
  have hnB : B.Name ∉ ((callUp A w.called).2.recorded env A.Name).names := by
    rw [hnames]; simpa using Ne.symm hne
  rw [hstep [], Manager.Run] at hB
  rw [hstep [B], Run_of_up_fail env B [] _ (hstore _) hnB cause hB]
  have hfinal : (callUp B ((callUp A w.called).2.recorded env A.Name).called).2.names
      = [A.Name] := by
    rw [callUp_names B _ hkeepB]; exact hnames
  refine ⟨rfl, hfinal, ?_, ?_⟩
  · simp [callUp, World.recorded, World.called]
  · rw [Run_of_recorded env A [B] _ (hstore _) (by rw [hfinal]; simp)]
    rw [Run_single_calls env B _ (hstore _) (by
      show B.Name ∉ (callUp B ((callUp A w.called).2.recorded env A.Name).called).2.called.names
      have : (callUp B ((callUp A w.called).2.recorded env A.Name).called).2.called.names = [A.Name] :=
        hfinal
      rw [this]; simpa using Ne.symm hne)]
    rfl

/-- The property of C3 for a migration that succeeds followed by one that fails. -/
theorem Run_stops_at_failing_Up_witness :
    (Manager.Run steadyEnv [addStep "A" 1, failingStep "B" "boom"] (freshWorld 0)).1 =
      some ("migration " ++ "B" ++ " failed: " ++ "boom") ∧
    (Manager.Run steadyEnv [addStep "A" 1, failingStep "B" "boom"] (freshWorld 0)).2.names = ["A"] ∧
    (Manager.Run steadyEnv [addStep "A" 1, failingStep "B" "boom"] (freshWorld 0)).2.calls =
      [] ++ [Call.up "A", Call.up "B"] ∧
    (Manager.Run steadyEnv [addStep "A" 1, failingStep "B" "boom"]
      (Manager.Run steadyEnv [addStep "A" 1, failingStep "B" "boom"] (freshWorld 0)).2).2.calls =
      (Manager.Run steadyEnv [addStep "A" 1, failingStep "B" "boom"] (freshWorld 0)).2.calls ++
        [Call.up "B"] :=
  Run_stops_at_failing_Up steadyEnv (addStep "A" 1) (failingStep "B" "boom") (freshWorld 0) "boom"
    (by decide) rfl (addStep_keeps _ _).1 (failingStep_keeps _ _).1 (fun _ => rfl) rfl rfl

/-- C4, as stated, fails.  Against a store with the unique index, `A.Up` succeeds,
the record of `A` is there by the time `Run` inserts its own, the store rejects
the insert with a duplicate-key error, and `Run` returns that error: `B`, whose
`Up` would succeed, is never attempted and gets no record. -/
theorem Run_duplicate_key_counterexample :
    (callUp (racedStep "A" 1 0) (freshWorld 0).called).1 = none ∧
    (Manager.recordMigration steadyEnv "A"
      (callUp (racedStep "A" 1 0) (freshWorld 0).called).2).1 = some StoreError.DuplicateKey ∧
    (Manager.Run steadyEnv [addStep "B" 2] (freshWorld 0)).1 = none ∧
    (Manager.Run steadyEnv [racedStep "A" 1 0, addStep "B" 2] (freshWorld 0)).1 =
      some "failed to record migration A: E11000 duplicate key error" ∧
    (Manager.Run steadyEnv [racedStep "A" 1 0, addStep "B" 2] (freshWorld 0)).2.calls =
      [Call.up "A"] ∧
    (Manager.Run steadyEnv [racedStep "A" 1 0, addStep "B" 2] (freshWorld 0)).2.names = ["A"] := by
  decide

/-- C4, amended.  When a migration is reached in a `Run`, has no record, its `Up`
succeeds and the store rejects the insert of its record with a duplicate-key
error, `Run` returns the error `failed to record migration <name>: <cause>` at
once: the call of that `Up` is the last call it makes. -/
theorem Run_duplicate_key_is_returned (env : Env) (pre post : List (Migration D))
    (m : Migration D) (w : World D)
    (hreach : (Manager.Run env pre w).1 = none)
    (hcheck : env.fault (Manager.Run env pre w).2.ops = none)
    (hnew : m.Name ∉ (Manager.Run env pre w).2.names)
    (hup : (m.Up (Manager.Run env pre w).2.db).1 = none)
    (hdup : (Manager.recordMigration env m.Name
      (callUp m (Manager.Run env pre w).2.called).2).1 = some StoreError.DuplicateKey) :
    (Manager.Run env (pre ++ m :: post) w).1 =
      some ("failed to record migration " ++ m.Name ++ ": " ++ StoreError.DuplicateKey.Error) ∧
    (Manager.Run env (pre ++ m :: post) w).2.calls =
      (Manager.Run env pre w).2.calls ++ [Call.up m.Name] := by
  rw [Run_append, if_pos hreach, Run_of_record_fail env m post _ hcheck hnew hup _ hdup]
  refine ⟨rfl, ?_⟩
  rcases recordMigration_snd env m.Name (callUp m (Manager.Run env pre w).2.called).2 with h | h <;>
    rw [h] <;> simp [World.recorded, callUp, World.called]

/-- The amended C4 for a migration whose record lands while its `Up` runs, reached
after one migration and followed by another. -/
theorem Run_duplicate_key_is_returned_witness :
    (Manager.Run steadyEnv ([addStep "Z" 5] ++ racedStep "A" 1 0 :: [addStep "B" 2])
      (freshWorld 0)).1 =
      some ("failed to record migration " ++ "A" ++ ": " ++ StoreError.DuplicateKey.Error) ∧
    (Manager.Run steadyEnv ([addStep "Z" 5] ++ racedStep "A" 1 0 :: [addStep "B" 2])
      (freshWorld 0)).2.calls =
      (Manager.Run steadyEnv [addStep "Z" 5] (freshWorld 0)).2.calls ++ [Call.up "A"] :=
  Run_duplicate_key_is_returned steadyEnv [addStep "Z" 5] [addStep "B" 2] (racedStep "A" 1 0)
    (freshWorld 0) (by decide) (by decide) (by decide) (by decide) (by decide)

/-- C6. The tracking store is not empty, the store answers the lookup, and the
supplied sequence has no migration named as a record with the maximum
`applied_at`: `Rollback` returns the error `migration <name> not found in
migration list` for such a record, invokes no `Down` and leaves the database as
it is. -/
theorem Rollback_unknown_migration (env : Env) (ms : List (Migration D)) (w : World D)
    (hnonempty : w.db.migrations ≠ [])
    (hstore : env.fault w.ops = none)
    (hmissing : ∀ r ∈ w.db.migrations, (∀ x ∈ w.db.migrations, x.AppliedAt ≤ r.AppliedAt) →
      ∀ m ∈ ms, m.Name ≠ r.Name) :
    ∃ r ∈ w.db.migrations, (∀ x ∈ w.db.migrations, x.AppliedAt ≤ r.AppliedAt) ∧
      (Manager.Rollback env ms w).1 =
        some ("migration " ++ r.Name ++ " not found in migration list") ∧
      (Manager.Rollback env ms w).2.calls = w.calls ∧
      (Manager.Rollback env ms w).2.db = w.db := by
  cases hs : sortByAppliedAt env false w.db.migrations with
  | nil =>
    have := (sortByAppliedAt_perm env false w.db.migrations).length_eq
    rw [hs] at this
    exact absurd (List.length_eq_zero.1 this.symm) hnonempty
  | cons r tl =>
    obtain ⟨hmem, hmax⟩ := sortByAppliedAt_head_max env w.db.migrations tl r hs
    have hfind : ms.find? (fun m => m.Name == r.Name) = none := by
      rw [List.find?_eq_none]
      intro m hm
      simpa using hmissing r hmem hmax m hm
    refine ⟨r, hmem, hmax, ?_⟩
    rw [Rollback_of_missing env ms w hstore r tl hs hfind]
    exact ⟨rfl, rfl, rfl⟩

/-- The property of C6 for a store whose latest record, `X`, has no migration in the
sequence. -/
theorem Rollback_unknown_migration_witness :
    ∃ r ∈ (worldWith [⟨"A", 10⟩, ⟨"X", 20⟩]).db.migrations,
      (∀ x ∈ (worldWith [⟨"A", 10⟩, ⟨"X", 20⟩]).db.migrations, x.AppliedAt ≤ r.AppliedAt) ∧
      (Manager.Rollback steadyEnv [addStep "A" 1, addStep "B" 2]
        (worldWith [⟨"A", 10⟩, ⟨"X", 20⟩])).1 =
        some ("migration " ++ r.Name ++ " not found in migration list") ∧
      (Manager.Rollback steadyEnv [addStep "A" 1, addStep "B" 2]
        (worldWith [⟨"A", 10⟩, ⟨"X", 20⟩])).2.calls = (worldWith [⟨"A", 10⟩, ⟨"X", 20⟩]).calls ∧
      (Manager.Rollback steadyEnv [addStep "A" 1, addStep "B" 2]
        (worldWith [⟨"A", 10⟩, ⟨"X", 20⟩])).2.db = (worldWith [⟨"A", 10⟩, ⟨"X", 20⟩]).db :=
  Rollback_unknown_migration steadyEnv [addStep "A" 1, addStep "B" 2]
    (worldWith [⟨"A", 10⟩, ⟨"X", 20⟩]) (by simp [worldWith]) rfl
    (by
      intro r hr hmax m hm
      simp [worldWith] at hr hmax hm
      rcases hr with rfl | rfl
      · simp at hmax
      · rcases hm with rfl | rfl <;> simp [addStep])

/-- C7. The store returns `r` as the last applied record, the sequence has the
migration `m` for it, and `m.Down` fails (leaving the tracking collection alone):
`Rollback` returns the error `rollback of <name> failed: <cause>` naming that
migration, and the tracking collection is as before, the record `r`, which no
record is later than, still in it. -/
theorem Rollback_failing_Down_keeps_record (env : Env) (ms : List (Migration D)) (w : World D)
    (r : MigrationRecord) (m : Migration D) (cause : String)
    (hlast : (Collection.FindOne env false w).1 = .ok r)
    (hfound : ms.find? (fun m => m.Name == r.Name) = some m)
    (hdown : (m.Down w.db).1 = some cause)
    (hkeep : KeepsTracking m.Down) :
    (Manager.Rollback env ms w).1 = some ("rollback of " ++ m.Name ++ " failed: " ++ cause) ∧
    m.Name = r.Name ∧
    (Manager.Rollback env ms w).2.db.migrations = w.db.migrations ∧
    r ∈ (Manager.Rollback env ms w).2.db.migrations ∧
    (∀ x ∈ w.db.migrations, x.AppliedAt ≤ r.AppliedAt) ∧
    (Manager.Rollback env ms w).2.calls = w.calls ++ [Call.down m.Name] := by
  obtain ⟨hf, tl, hs⟩ := FindOne_ok env false w r hlast
  obtain ⟨hmem, hmax⟩ := sortByAppliedAt_head_max env w.db.migrations tl r hs
  have hname : m.Name = r.Name := by
    simpa using List.find?_some hfound
  rw [Rollback_of_down_fail env ms w hf r tl hs m hfound cause hdown]
  have hmig : (callDown m w.called).2.db.migrations = w.db.migrations := by
    simp [callDown, World.called, hkeep w.db]
  refine ⟨rfl, hname, hmig, ?_, hmax, ?_⟩
  · show r ∈ (callDown m w.called).2.db.migrations
    rw [hmig]; exact hmem
  · simp [callDown, World.called]

/-- The property of C7 for a store whose latest record belongs to a migration whose
`Down` fails. -/
theorem Rollback_failing_Down_keeps_record_witness :
    (Manager.Rollback steadyEnv [addStep "A" 1, failingStep "B" "boom"]
      (worldWith [⟨"A", 10⟩, ⟨"B", 20⟩])).1 = some ("rollback of " ++ "B" ++ " failed: " ++ "boom") ∧
    (Manager.Rollback steadyEnv [addStep "A" 1, failingStep "B" "boom"]
      (worldWith [⟨"A", 10⟩, ⟨"B", 20⟩])).2.db.migrations = [⟨"A", 10⟩, ⟨"B", 20⟩] :=
  have h := Rollback_failing_Down_keeps_record steadyEnv [addStep "A" 1, failingStep "B" "boom"]
    (worldWith [⟨"A", 10⟩, ⟨"B", 20⟩]) ⟨"B", 20⟩ (failingStep "B" "boom") "boom"
    rfl rfl rfl (failingStep_keeps _ _).2
  ⟨h.1, h.2.2.1⟩

/-- C8. Whatever the tracking store, the replies of the store and the sequence,
when the `Up` of the migrations never touch the tracking collection and `Run`
returns success, every migration of the sequence has a record with its name in
the tracking store when `Run` returns: the store then holds the records it held
at the start followed by those inserted during this run, and the record of each
migration is among the former or among the latter. -/
theorem Run_success_means_all_recorded (env : Env) (R : List (Migration D)) (w : World D)
    (hkeep : ∀ m ∈ R, KeepsTracking m.Up)
    (hok : (Manager.Run env R w).1 = none) :
    ∃ inserted, (Manager.Run env R w).2.db.migrations = w.db.migrations ++ inserted ∧
      ∀ m ∈ R, (∃ r ∈ w.db.migrations, r.Name = m.Name) ∨ (∃ r ∈ inserted, r.Name = m.Name) := by
  obtain ⟨inserted, hins⟩ := Run_keeps_records env R w hkeep
  refine ⟨inserted, hins.symm, ?_⟩
  intro m hm
  obtain ⟨r, hr, hname⟩ := (mem_names_iff _ _).1 (Run_ok_recorded env R w hkeep hok m hm)
  rw [← hins] at hr
  rcases List.mem_append.1 hr with h | h
  · exact Or.inl ⟨r, h, hname⟩
  · exact Or.inr ⟨r, h, hname⟩

/-- The property of C8 for a registry of two migrations, one of them recorded
beforehand. -/
theorem Run_success_means_all_recorded_witness :
    ∃ inserted,
      (Manager.Run steadyEnv [addStep "A" 1, addStep "B" 2]
        (worldWith [⟨"A", 10⟩])).2.db.migrations = (worldWith [⟨"A", 10⟩]).db.migrations ++ inserted ∧
      ∀ m ∈ [addStep "A" 1, addStep "B" 2],
        (∃ r ∈ (worldWith [⟨"A", 10⟩]).db.migrations, r.Name = m.Name) ∨
        (∃ r ∈ inserted, r.Name = m.Name) :=
  Run_success_means_all_recorded steadyEnv [addStep "A" 1, addStep "B" 2] (worldWith [⟨"A", 10⟩])
    (by intro m hm; simp at hm; rcases hm with rfl | rfl <;> exact (addStep_keeps _ _).1)
    (by decide)

/-- C9, as stated, fails.  `Run([A, B, C])` succeeds on an empty tracking store,
the three records get one and the same `applied_at`, and `GetStatus` returns
them, sorted by `applied_at`, in the order `C`, `B`, `A`. -/
theorem GetStatus_ties_counterexample :
    (Manager.Run tiedEnv [addStep "A" 1, addStep "B" 2, addStep "C" 3] (freshWorld 0)).1 = none ∧
    (Manager.Run tiedEnv [addStep "A" 1, addStep "B" 2, addStep "C" 3]
      (freshWorld 0)).2.db.migrations =
      [⟨"A", 1700000000000⟩, ⟨"B", 1700000000000⟩, ⟨"C", 1700000000000⟩] ∧
    (Manager.GetStatus tiedEnv
      (Manager.Run tiedEnv [addStep "A" 1, addStep "B" 2, addStep "C" 3] (freshWorld 0)).2).1 =
      Except.ok [⟨"C", 1700000000000⟩, ⟨"B", 1700000000000⟩, ⟨"A", 1700000000000⟩] :=
  ⟨by decide, by decide, rfl⟩

/-- C9, amended.  After `Run([A, B, C])` (distinct names, `Up`s leaving the
tracking collection alone) succeeded on an empty tracking store, `GetStatus`,
the store answering, returns exactly three records, sorted by `applied_at`
ascending: the records of `A`, `B` and `C` in some order, and in the order
`[A, B, C]` when their `applied_at` strictly increase.  `GetStatus` changes
nothing in the database. -/
theorem GetStatus_after_Run (env : Env) (A B C : Migration D) (w : World D)
    (hAB : A.Name ≠ B.Name) (hAC : A.Name ≠ C.Name) (hBC : B.Name ≠ C.Name)
    (hempty : w.db.migrations = [])
    (hkeep : ∀ m ∈ [A, B, C], KeepsTracking m.Up)
    (hrun : (Manager.Run env [A, B, C] w).1 = none)
    (hstore : ∀ n, (Manager.Run env [A, B, C] w).2.ops ≤ n → env.fault n = none) :
    ∃ records, (Manager.GetStatus env (Manager.Run env [A, B, C] w).2).1 = .ok records ∧
      records.length = 3 ∧
      records.Pairwise (fun a b => a.AppliedAt ≤ b.AppliedAt) ∧
      records.Perm [⟨A.Name, env.now w.ticks⟩, ⟨B.Name, env.now (w.ticks + 1)⟩,
        ⟨C.Name, env.now (w.ticks + 2)⟩] ∧
      (env.now w.ticks < env.now (w.ticks + 1) →
        env.now (w.ticks + 1) < env.now (w.ticks + 2) →
        records.map (fun r => r.Name) = [A.Name, B.Name, C.Name]) ∧
      (Manager.GetStatus env (Manager.Run env [A, B, C] w).2).2.db =
        (Manager.Run env [A, B, C] w).2.db := by
  have hnd : ([A, B, C].map (fun m => m.Name)).Nodup := by
    simp [hAB, hAC, hBC]
  have hnew : ∀ m ∈ [A, B, C], m.Name ∉ w.names := by
    intro m _; simp [World.names, hempty]
  have hrecs := (Run_ok_of_fresh env [A, B, C] w hrun hnd hnew hkeep).1
  simp only [hempty, List.nil_append, List.map, stamped] at hrecs
  have h2 : w.ticks + 1 + 1 = w.ticks + 2 := rfl
  rw [h2] at hrecs
  rw [GetStatus_of_reply env _ (hstore _ (le_refl _)) (hstore _ (Nat.le_succ _))]
  refine ⟨_, rfl, ?_, ?_, ?_, ?_, rfl⟩
  · rw [(sortByAppliedAt_perm env true _).length_eq, hrecs]; rfl
  · have := sortByAppliedAt_sorted env true (Manager.Run env [A, B, C] w).2.db.migrations
    simpa [keyOrdered] using this
  · exact (sortByAppliedAt_perm env true _).trans (List.Perm.of_eq hrecs)
  · intro h1 h2
    rw [sortByAppliedAt_of_increasing env _ (by
      rw [hrecs]
      simp
      omega), hrecs]
    rfl

/-- The amended C9 for three migrations and a clock that advances at each reading. -/
theorem GetStatus_after_Run_witness :
    ∃ records, (Manager.GetStatus steadyEnv
        (Manager.Run steadyEnv [addStep "A" 1, addStep "B" 2, addStep "C" 3] (freshWorld 0)).2).1 =
        .ok records ∧
      records.length = 3 ∧
      records.Pairwise (fun a b => a.AppliedAt ≤ b.AppliedAt) ∧
      records.Perm [⟨"A", steadyEnv.now 0⟩, ⟨"B", steadyEnv.now (0 + 1)⟩,
        ⟨"C", steadyEnv.now (0 + 2)⟩] ∧
      (steadyEnv.now 0 < steadyEnv.now (0 + 1) →
        steadyEnv.now (0 + 1) < steadyEnv.now (0 + 2) →
        records.map (fun r => r.Name) = ["A", "B", "C"]) ∧
      (Manager.GetStatus steadyEnv
        (Manager.Run steadyEnv [addStep "A" 1, addStep "B" 2, addStep "C" 3] (freshWorld 0)).2).2.db =
        (Manager.Run steadyEnv [addStep "A" 1, addStep "B" 2, addStep "C" 3] (freshWorld 0)).2.db :=
  GetStatus_after_Run steadyEnv (addStep "A" 1) (addStep "B" 2) (addStep "C" 3) (freshWorld 0)
    (by decide) (by decide) (by decide) rfl
    (by intro m hm; simp at hm; rcases hm with rfl | rfl | rfl <;> exact (addStep_keeps _ _).1)
    (by decide) (fun _ _ => rfl)

/-- C10. The store answering, `Run` invokes `Up` on exactly the migrations that
`expectedUps` names: in the order of the sequence the caller gives, those that
had no record at the moment they were reached, up to and including the first
one that fails, and none after it; the database it leaves is the one described
there.  A migration that has a record when it is reached is skipped: the run
goes on with the rest from the same database and the same log, no `Up` called. -/
theorem Run_invokes_unrecorded_in_order (env : Env) (R : List (Migration D)) (w : World D)
    (hstore : ∀ n, env.fault n = none) :
    (Manager.Run env R w).2.calls = w.calls ++ (expectedUps env R w.db w.ticks).1.map Call.up ∧
    (Manager.Run env R w).2.db = (expectedUps env R w.db w.ticks).2 ∧
    (expectedUps env R w.db w.ticks).1.Sublist (R.map (fun m => m.Name)) ∧
    ∀ (m : Migration D) (rest : List (Migration D)) (v : World D), m.Name ∈ v.names →
      ∃ v1, Manager.Run env (m :: rest) v = Manager.Run env rest v1 ∧
        v1.db = v.db ∧ v1.calls = v.calls := by
  obtain ⟨hcalls, hdb⟩ := Run_refines_expectedUps env R w hstore
  refine ⟨hcalls, hdb, expectedUps_sublist env R w.db w.ticks, ?_⟩
  intro m rest v hn
  exact ⟨v.called, Run_of_recorded env m rest v (hstore _) hn, rfl, rfl⟩

/-- The log of C10 for a sequence with a repeated migration and a failing one: the
repetition is skipped and nothing after the failure is invoked. -/
theorem Run_invokes_unrecorded_in_order_witness :
    (Manager.Run steadyEnv [addStep "A" 1, addStep "A" 1, failingStep "B" "boom", addStep "C" 3]
      (freshWorld 0)).2.calls = [Call.up "A", Call.up "B"] :=
  (Run_invokes_unrecorded_in_order steadyEnv
    [addStep "A" 1, addStep "A" 1, failingStep "B" "boom", addStep "C" 3] (freshWorld 0)
    (fun _ => rfl)).1.trans (by decide)

/-- C11. Name-uniqueness is kept by the manager, with or without the unique
index and whatever the store replies: from a tracking store in which no two
records share a name, every `Run` and every `Rollback`, successful or failing,
over any sequence, repeated names included (the migrations leaving the tracking
collection alone), leaves a tracking store in which no two records share a
name.  `Run` only appends, and only records whose name had no record at the
start. -/
theorem names_stay_distinct (env : Env) (ms : List (Migration D)) (w : World D)
    (hdistinct : w.names.Nodup)
    (hkeepUp : ∀ m ∈ ms, KeepsTracking m.Up)
    (hkeepDown : ∀ m ∈ ms, KeepsTracking m.Down) :
    (Manager.Run env ms w).2.names.Nodup ∧
    (Manager.Rollback env ms w).2.names.Nodup ∧
    ∃ inserted, (Manager.Run env ms w).2.db.migrations = w.db.migrations ++ inserted ∧
      ∀ r ∈ inserted, r.Name ∉ w.names := by
  have hrun := Run_names_nodup env ms w hkeepUp hdistinct
  refine ⟨hrun, Rollback_names_nodup env ms w hkeepDown hdistinct, ?_⟩
  obtain ⟨inserted, hins⟩ := Run_keeps_records env ms w hkeepUp
  refine ⟨inserted, hins.symm, ?_⟩
  intro r hr hmem
  have hsplit : (Manager.Run env ms w).2.names =
      w.names ++ inserted.map (fun r => r.Name) := by
    simp [World.names, ← hins]
  rw [hsplit] at hrun
  exact List.disjoint_of_nodup_append hrun hmem (List.mem_map_of_mem (fun r => r.Name) hr)

/-- The property of C11 for a store without the unique index and a sequence that
names `B` twice and ends with a failing migration. -/
theorem names_stay_distinct_witness :
    (Manager.Run steadyEnv [addStep "B" 2, addStep "B" 2, failingStep "C" "boom"]
      (unindexedWorld [⟨"A", 10⟩])).2.names.Nodup ∧
    (Manager.Rollback steadyEnv [addStep "B" 2, addStep "B" 2, failingStep "C" "boom"]
      (unindexedWorld [⟨"A", 10⟩])).2.names.Nodup ∧
    ∃ inserted,
      (Manager.Run steadyEnv [addStep "B" 2, addStep "B" 2, failingStep "C" "boom"]
        (unindexedWorld [⟨"A", 10⟩])).2.db.migrations =
        (unindexedWorld [⟨"A", 10⟩]).db.migrations ++ inserted ∧
      ∀ r ∈ inserted, r.Name ∉ (unindexedWorld [⟨"A", 10⟩]).names :=
  names_stay_distinct steadyEnv [addStep "B" 2, addStep "B" 2, failingStep "C" "boom"]
    (unindexedWorld [⟨"A", 10⟩]) (by decide)
    (by
      intro m hm; simp at hm
      rcases hm with rfl | rfl <;> first | exact (addStep_keeps _ _).1 | exact (failingStep_keeps _ _).1)
    (by
      intro m hm; simp at hm
      rcases hm with rfl | rfl <;> first | exact (addStep_keeps _ _).2 | exact (failingStep_keeps _ _).2)

end migration
